import Mathlib

/-!
Verification development for the VideoSplice video-to-clip pipeline.

Each Python stage that the specification's claims talk about is shallowly
embedded as an executable Lean function, translated directly from the
source files under `backend/video_pipeline/`:

* `cluster_frames.py`  — noise resegmentation over HDBSCAN labels
* `clipper.py`         — block building, chunking, per-chunk encode isolation
* `config.py` / `pipeline.py` — memory guard
* `extract_frames.py` / `video_io.py` — frame sampling
* `select_representative_frames.py`   — centroid-nearest representatives

Python floats are modelled as rationals (`ℚ`), numpy integer labels as `Int`,
dictionaries as association lists with `List.lookup`, and raised exceptions
as `Except` errors.
-/

set_option maxHeartbeats 1000000

namespace VideoSplice

/-! ## cluster_frames.py, lines 93-106: noise resegmentation

```python
final_labels = labels.copy()
next_cluster_id = final_labels.max() + 1  # first free positive integer

in_noise_block = False
for i, lbl in enumerate(labels):
    if lbl == -1 and not in_noise_block:
        current_id = next_cluster_id
        next_cluster_id += 1
        in_noise_block = True
    elif lbl != -1:
        in_noise_block = False
        current_id = lbl
    final_labels[i] = current_id
```
-/

/-- `numpy.ndarray.max` over the label array; the pipeline only reaches the
resegmentation step with at least two frames, so the empty case is a dead
default. -/
def listMax : List Int → Int
| [] => -1
| x :: xs => xs.foldl max x

/-- The loop body of the resegmentation pass.  State: `nextId` is
`next_cluster_id`, `inNoise` is `in_noise_block`, `cur` is `current_id`
(always overwritten at the first iteration, so its initial value is inert). -/
def resegmentGo : List Int → Int → Bool → Int → List Int
| [], _, _, _ => []
| lbl :: rest, nextId, inNoise, cur =>
  if lbl = -1 ∧ inNoise = false then
    nextId :: resegmentGo rest (nextId + 1) true nextId
  else if lbl ≠ -1 then
    lbl :: resegmentGo rest nextId false lbl
  else
    cur :: resegmentGo rest nextId inNoise cur

/-- `cluster_frames.run` noise-resegmentation step: `labels` in chronological
order, `-1` the noise sentinel. -/
def resegmentNoise (labels : List Int) : List Int :=
  resegmentGo labels (listMax labels + 1) false 0

/-- Number of contiguous noise runs that *begin* inside `l`, given whether the
element just before `l` was noise (`b`). -/
def countStarts : Bool → List Int → ℕ
| _, [] => 0
| b, x :: xs => (if x = -1 ∧ b = false then 1 else 0) + countStarts (decide (x = -1)) xs

/-- The "previous element was noise" flag after scanning `l`, starting from `b`. -/
def endFlag : Bool → List Int → Bool
| b, [] => b
| _, x :: xs => endFlag (decide (x = -1)) xs

theorem resegmentGo_length (rest : List Int) :
    ∀ nextId inNoise cur, (resegmentGo rest nextId inNoise cur).length = rest.length := by
  induction rest with
  | nil => intro _ _ _; rfl
  | cons lbl rest ih =>
    intro nextId inNoise cur
    by_cases h1 : lbl = -1 ∧ inNoise = false
    · simp [resegmentGo, h1, ih]
    · by_cases h2 : lbl ≠ -1
      · simp [resegmentGo, h1, h2, ih]
      · simp [resegmentGo, h1, h2, ih]

theorem resegmentNoise_length (labels : List Int) :
    (resegmentNoise labels).length = labels.length :=
  resegmentGo_length labels _ _ _

theorem resegmentGo_getD_keep (rest : List Int) :
    ∀ nextId inNoise cur i, i < rest.length → rest.getD i 0 ≠ -1 →
      (resegmentGo rest nextId inNoise cur).getD i 0 = rest.getD i 0 := by
  induction rest with
  | nil => intro _ _ _ i hi _; exact absurd hi (by simp)
  | cons lbl rest ih =>
    intro nextId inNoise cur i hi hne
    by_cases h1 : lbl = -1 ∧ inNoise = false
    · cases i with
      | zero => simp [List.getD_cons_zero] at hne; exact absurd h1.1 hne
      | succ j =>
        simp only [resegmentGo, if_pos h1, List.getD_cons_succ]
        exact ih _ _ _ j (by simpa using hi) (by simpa using hne)
    · by_cases h2 : lbl ≠ -1
      · cases i with
        | zero => simp [resegmentGo, h1, h2]
        | succ j =>
          simp only [resegmentGo, if_neg h1, if_pos h2, List.getD_cons_succ]
          exact ih _ _ _ j (by simpa using hi) (by simpa using hne)
      · cases i with
        | zero => simp [List.getD_cons_zero] at hne; push_neg at h2; exact absurd h2 hne
        | succ j =>
          simp only [resegmentGo, if_neg h1, if_neg h2, List.getD_cons_succ]
          exact ih _ _ _ j (by simpa using hi) (by simpa using hne)

theorem countStarts_true_of_allNoise : ∀ (l : List Int), (∀ x ∈ l, x = -1) →
    countStarts true l = 0 := by
  intro l
  induction l with
  | nil => intro _; rfl
  | cons x xs ih =>
    intro h
    have hx : x = -1 := h x (by simp)
    subst hx
    simp [countStarts, ih (fun y hy => h y (by simp [hy]))]

theorem resegmentGo_getD_noise (rest : List Int) :
    ∀ (nextId : Int) (b : Bool) (cur : Int) (i : ℕ), i < rest.length → rest.getD i 0 = -1 →
      (resegmentGo rest nextId b cur).getD i 0 =
        if b = true ∧ (∀ x ∈ rest.take (i+1), x = -1) then cur
        else nextId + (countStarts b (rest.take (i+1)) : Int) - 1 := by
  induction rest with
  | nil => intro _ _ _ i hi _; exact absurd hi (by simp)
  | cons lbl rest ih =>
    intro nextId b cur i hi hnoise
    cases i with
    | zero =>
      simp only [List.getD_cons_zero] at hnoise
      subst hnoise
      cases b with
      | false => simp [resegmentGo, countStarts]
      | true => simp [resegmentGo, countStarts]
    | succ j =>
      have hj : j < rest.length := by simpa using hi
      have hrj : rest.getD j 0 = -1 := by simpa using hnoise
      by_cases hA : lbl = -1 ∧ b = false
      · obtain ⟨hlbl, hb⟩ := hA
        subst hlbl; subst hb
        have e1 : resegmentGo (-1 :: rest) nextId false cur
            = nextId :: resegmentGo rest (nextId + 1) true nextId := by
          simp [resegmentGo]
        rw [e1, List.getD_cons_succ, ih (nextId + 1) true nextId j hj hrj]
        by_cases hall : ∀ x ∈ rest.take (j+1), x = -1
        · rw [if_pos ⟨rfl, hall⟩, if_neg (by simp)]
          simp [countStarts, countStarts_true_of_allNoise _ hall]
        · rw [if_neg (by simp [hall]), if_neg (by simp)]
          have e2 : countStarts false ((-1 :: rest).take (j+1+1))
              = 1 + countStarts true (rest.take (j+1)) := by
            simp [countStarts]
          rw [e2]
          push_cast
          ring
      · by_cases hB : lbl ≠ -1
        · have e1 : resegmentGo (lbl :: rest) nextId b cur
              = lbl :: resegmentGo rest nextId false lbl := by
            simp [resegmentGo, hB, hA]
          rw [e1, List.getD_cons_succ, ih nextId false lbl j hj hrj]
          rw [if_neg (by simp), if_neg ?hc]
          case hc =>
            rintro ⟨-, hall⟩
            exact hB (hall lbl (by simp))
          have e2 : countStarts b ((lbl :: rest).take (j+1+1))
              = countStarts false (rest.take (j+1)) := by
            simp [countStarts, hB, show decide (lbl = -1) = false by simp [hB]]
          rw [e2]
        · push_neg at hB
          -- here lbl = -1 and b = true
          have hb : b = true := by
            cases b with
            | false => exact absurd ⟨hB, rfl⟩ hA
            | true => rfl
          subst hb; subst hB
          have e1 : resegmentGo (-1 :: rest) nextId true cur
              = cur :: resegmentGo rest nextId true cur := by
            simp [resegmentGo]
          rw [e1, List.getD_cons_succ, ih nextId true cur j hj hrj]
          by_cases hall : ∀ x ∈ rest.take (j+1), x = -1
          · rw [if_pos ⟨rfl, hall⟩, if_pos ⟨rfl, by simpa using hall⟩]
          · rw [if_neg (by simp [hall]), if_neg (by simp [hall])]
            have e2 : countStarts true ((-1 :: rest).take (j+1+1))
                = countStarts true (rest.take (j+1)) := by
              simp [countStarts]
            rw [e2]

theorem getD_mem_of_lt (l : List Int) (i : ℕ) (h : i < l.length) : l.getD i 0 ∈ l := by
  rw [List.getD_eq_getElem l 0 h]
  exact List.getElem_mem h

theorem getD_take_eq (l : List Int) (n i : ℕ) (hin : i < n) (hl : i < l.length) :
    (l.take n).getD i 0 = l.getD i 0 := by
  have hlt : i < (l.take n).length := by simp [List.length_take]; omega
  rw [List.getD_eq_getElem _ 0 hlt, List.getD_eq_getElem l 0 hl]
  exact List.getElem_take l

theorem getD_drop_eq (l : List Int) (m t : ℕ) (h : m + t < l.length) :
    (l.drop m).getD t 0 = l.getD (m + t) 0 := by
  have hlt : t < (l.drop m).length := by simp [List.length_drop]; omega
  rw [List.getD_eq_getElem _ 0 hlt, List.getD_eq_getElem l 0 h]
  exact List.getElem_drop l

theorem take_succ_eq_append (l : List Int) (i : ℕ) (h : i < l.length) :
    l.take (i+1) = l.take i ++ [l.getD i 0] := by
  rw [List.getD_eq_getElem l 0 h, ← List.concat_eq_append, List.take_concat_get]

theorem endFlag_take (l : List Int) : ∀ (i : ℕ) (b : Bool), i < l.length →
    endFlag b (l.take (i+1)) = decide (l.getD i 0 = -1) := by
  induction l with
  | nil => intro i b h; exact absurd h (by simp)
  | cons x xs ih =>
    intro i b h
    cases i with
    | zero => simp [endFlag, List.take_succ_cons]
    | succ j =>
      rw [List.take_succ_cons]
      simp only [endFlag, List.getD_cons_succ]
      exact ih j _ (by simpa using h)

theorem countStarts_append (l1 l2 : List Int) : ∀ b,
    countStarts b (l1 ++ l2) = countStarts b l1 + countStarts (endFlag b l1) l2 := by
  induction l1 with
  | nil => intro b; simp [countStarts, endFlag]
  | cons x xs ih =>
    intro b
    have h1 : countStarts b ((x :: xs) ++ l2)
        = (if x = -1 ∧ b = false then 1 else 0) + countStarts (decide (x = -1)) (xs ++ l2) := rfl
    have h2 : countStarts b (x :: xs)
        = (if x = -1 ∧ b = false then 1 else 0) + countStarts (decide (x = -1)) xs := rfl
    have h3 : endFlag b (x :: xs) = endFlag (decide (x = -1)) xs := rfl
    rw [h1, h2, h3, ih]
    omega

theorem countStarts_take_le (l : List Int) (m n : ℕ) (h : m ≤ n) :
    countStarts false (l.take m) ≤ countStarts false (l.take n) := by
  have hn : n = m + (n - m) := by omega
  rw [hn, List.take_add, countStarts_append]
  exact Nat.le_add_right _ _

theorem countStarts_pos : ∀ (l : List Int), (∃ x ∈ l, x = -1) → 1 ≤ countStarts false l := by
  intro l
  induction l with
  | nil => rintro ⟨x, hx, -⟩; simp at hx
  | cons y ys ih =>
    rintro ⟨x, hx, hx1⟩
    by_cases hy : y = -1
    · simp [countStarts, hy]
    · have hxy : x ∈ ys := by
        rcases List.mem_cons.mp hx with h | h
        · exact absurd (h ▸ hx1) hy
        · exact h
      have h1 := ih ⟨x, hxy, hx1⟩
      simpa [countStarts, hy, show decide (y = -1) = false by simp [hy]] using h1

theorem le_foldl_max (xs : List Int) : ∀ a : Int, a ≤ xs.foldl max a := by
  induction xs with
  | nil => intro a; simp
  | cons x xs ih =>
    intro a
    simpa [List.foldl_cons] using le_trans (le_max_left a x) (ih (max a x))

theorem mem_le_foldl_max (xs : List Int) : ∀ (a x : Int), x ∈ xs → x ≤ xs.foldl max a := by
  induction xs with
  | nil => intro a x hx; simp at hx
  | cons y ys ih =>
    intro a x hx
    rcases List.mem_cons.mp hx with h | h
    · subst h
      simpa [List.foldl_cons] using le_trans (le_max_right a x) (le_foldl_max ys (max a x))
    · simpa [List.foldl_cons] using ih (max a y) x h

theorem le_listMax : ∀ (l : List Int) (x : Int), x ∈ l → x ≤ listMax l := by
  intro l x hx
  cases l with
  | nil => simp at hx
  | cons y ys =>
    rcases List.mem_cons.mp hx with h | h
    · subst h; exact le_foldl_max ys x
    · exact mem_le_foldl_max ys y x h

/-- A new noise run starts at position `i` exactly when the frame is noise and
the previous frame was not (or `i` is the first position). -/
theorem countStarts_take_succ (l : List Int) (i : ℕ) (h : i < l.length) :
    countStarts false (l.take (i+1))
      = countStarts false (l.take i)
        + (if l.getD i 0 = -1 ∧ (i = 0 ∨ l.getD (i-1) 0 ≠ -1) then 1 else 0) := by
  rw [take_succ_eq_append l i h, countStarts_append]
  congr 1
  cases i with
  | zero =>
    by_cases h0 : l.getD 0 0 = -1 <;> simp [countStarts, endFlag, h0]
  | succ j =>
    rw [endFlag_take l j false (by omega)]
    by_cases hj : l.getD j 0 = -1
    · simp [countStarts, hj]
    · simp [countStarts, hj]

/-- **C1** (noise resegmentation, `cluster_frames.py` lines 93-106).
For every chronological label sequence (noise sentinel `-1`) the
resegmentation step: (1) preserves the length; (2) leaves every non-noise
frame's label unchanged; (3) assigns each noise frame the id
`labels.max + (number of noise runs begun so far)` — the "highest id seen so
far" (the array maximum plus all previously minted ids) plus one at the run's
start; (4) by `countStarts_take_succ`, a new id is minted exactly at a
position that is noise whose predecessor is not noise (or position 0);
(5) all frames of one contiguous noise run share one id; (6) noise runs
separated by a non-noise frame receive distinct ids; (7) minted ids differ
from every original label. -/
theorem cluster_noise_resegmentation (labels : List Int) :
    (resegmentNoise labels).length = labels.length ∧
    (∀ i, i < labels.length → labels.getD i 0 ≠ -1 →
        (resegmentNoise labels).getD i 0 = labels.getD i 0) ∧
    (∀ i, i < labels.length → labels.getD i 0 = -1 →
        (resegmentNoise labels).getD i 0
          = listMax labels + (countStarts false (labels.take (i+1)) : ℤ)) ∧
    (∀ i, i < labels.length →
        countStarts false (labels.take (i+1))
          = countStarts false (labels.take i)
            + (if labels.getD i 0 = -1 ∧ (i = 0 ∨ labels.getD (i-1) 0 ≠ -1)
               then 1 else 0)) ∧
    (∀ i, i + 1 < labels.length → labels.getD i 0 = -1 → labels.getD (i+1) 0 = -1 →
        (resegmentNoise labels).getD i 0 = (resegmentNoise labels).getD (i+1) 0) ∧
    (∀ i j, i < j → j < labels.length → labels.getD i 0 = -1 → labels.getD j 0 = -1 →
        (∃ k, i < k ∧ k < j ∧ labels.getD k 0 ≠ -1) →
        (resegmentNoise labels).getD i 0 ≠ (resegmentNoise labels).getD j 0) ∧
    (∀ i, i < labels.length → labels.getD i 0 = -1 →
        ∀ x ∈ labels, (resegmentNoise labels).getD i 0 ≠ x) := by
  have key : ∀ i, i < labels.length → labels.getD i 0 = -1 →
      (resegmentNoise labels).getD i 0
        = listMax labels + (countStarts false (labels.take (i+1)) : ℤ) := by
    intro i hi hn
    have h := resegmentGo_getD_noise labels (listMax labels + 1) false 0 i hi hn
    rw [if_neg (by simp)] at h
    calc (resegmentNoise labels).getD i 0
        = listMax labels + 1 + (countStarts false (labels.take (i+1)) : ℤ) - 1 := h
      _ = listMax labels + (countStarts false (labels.take (i+1)) : ℤ) := by ring
  have cspos : ∀ i, i < labels.length → labels.getD i 0 = -1 →
      1 ≤ countStarts false (labels.take (i+1)) := by
    intro i hi hn
    apply countStarts_pos
    refine ⟨-1, ?_, rfl⟩
    have hval : (labels.take (i+1)).getD i 0 = -1 := by
      rw [getD_take_eq labels (i+1) i (by omega) hi]; exact hn
    have hlt : i < (labels.take (i+1)).length := by simp [List.length_take]; omega
    exact hval ▸ getD_mem_of_lt _ i hlt
  refine ⟨resegmentNoise_length labels, ?_, key, ?_, ?_, ?_, ?_⟩
  · intro i hi hne
    exact resegmentGo_getD_keep labels _ _ _ i hi hne
  · intro i hi
    exact countStarts_take_succ labels i hi
  · intro i hi1 hni hni1
    have hi : i < labels.length := by omega
    rw [key i hi hni, key (i+1) hi1 hni1]
    have hstep := countStarts_take_succ labels (i+1) hi1
    rw [if_neg (by
      rintro ⟨-, h0 | hprev⟩
      · omega
      · simp only [Nat.add_sub_cancel] at hprev
        exact hprev hni)] at hstep
    rw [show i + 1 + 1 = i + 2 from rfl] at hstep
    rw [show i + 1 + 1 = i + 2 from rfl]
    omega
  · rintro i j hij hj hni hnj ⟨k, hik, hkj, hk⟩
    have hi : i < labels.length := by omega
    rw [key i hi hni, key j hj hnj]
    intro heq
    have hcs : countStarts false (labels.take (i+1)) = countStarts false (labels.take (j+1)) := by
      have : (countStarts false (labels.take (i+1)) : ℤ)
          = (countStarts false (labels.take (j+1)) : ℤ) := by omega
      exact_mod_cast this
    have h1 : countStarts false (labels.take (i+1)) ≤ countStarts false (labels.take (k+1)) :=
      countStarts_take_le labels (i+1) (k+1) (by omega)
    have hdecomp : labels.take (j+1) = labels.take (k+1) ++ (labels.drop (k+1)).take (j - k) := by
      rw [show j + 1 = (k+1) + (j - k) by omega, List.take_add]
    have hflag : endFlag false (labels.take (k+1)) = false := by
      rw [endFlag_take labels k false (by omega)]
      exact decide_eq_false hk
    have hmem : (-1 : Int) ∈ (labels.drop (k+1)).take (j - k) := by
      have hlen2 : j - k - 1 < ((labels.drop (k+1)).take (j - k)).length := by
        simp [List.length_take, List.length_drop]
        omega
      have hv : ((labels.drop (k+1)).take (j - k)).getD (j - k - 1) 0 = -1 := by
        rw [getD_take_eq _ (j - k) (j - k - 1) (by omega)
            (by simp [List.length_drop]; omega)]
        rw [getD_drop_eq labels (k+1) (j - k - 1) (by omega)]
        rw [show (k+1) + (j - k - 1) = j by omega]
        exact hnj
      exact hv ▸ getD_mem_of_lt _ _ hlen2
    have h2 : 1 ≤ countStarts false ((labels.drop (k+1)).take (j - k)) :=
      countStarts_pos _ ⟨-1, hmem, rfl⟩
    have h3 : countStarts false (labels.take (j+1))
        = countStarts false (labels.take (k+1))
          + countStarts false ((labels.drop (k+1)).take (j - k)) := by
      rw [hdecomp, countStarts_append, hflag]
    omega
  · intro i hi hni x hx heq
    rw [key i hi hni] at heq
    have h1 : x ≤ listMax labels := le_listMax labels x hx
    have h2 : 1 ≤ countStarts false (labels.take (i+1)) := cspos i hi hni
    omega

/-- Witness for C1 at the spec's own example `[-1,-1,0,-1,-1,1]`: the output is
`[2,2,0,3,3,1]` — positions 2 and 5 keep `0` and `1`, the two noise runs get
the fresh distinct ids `2` and `3`, both different from all original labels. -/
theorem cluster_noise_resegmentation_witness :
    resegmentNoise [-1, -1, 0, -1, -1, 1] = [2, 2, 0, 3, 3, 1] ∧
    (resegmentNoise [-1, -1, 0, -1, -1, 1]).length = ([-1, -1, 0, -1, -1, 1] : List Int).length :=
  ⟨by decide, (cluster_noise_resegmentation [-1, -1, 0, -1, -1, 1]).1⟩

/-! ## clipper.py: blocks, chunking, encode isolation

```python
df = sorted(frames, key=lambda f: f["index"])
missing_clusters = [f["path"] for f in df if f["path"] not in clusters]
if missing_clusters: raise ValueError(...)
current_cluster = clusters[df[0]["path"]]
block_start = df[0]["timestamp"]; last_ts = block_start
for frame in df[1:]:
    ts = frame["timestamp"]; cid = clusters[frame["path"]]
    if cid != current_cluster:
        clip_blocks.append((current_cluster, block_start, last_ts))
        current_cluster = cid; block_start = ts
    last_ts = ts
clip_blocks.append((current_cluster, block_start, last_ts))
for seq, (cid, start, end) in enumerate(clip_blocks):
    duration = end - start
    if duration <= 0: continue
    n_chunks = max(1, math.ceil(duration / max_clip_seconds))
    chunk_len = min(duration, max_clip_seconds)
    for chunk_idx in range(n_chunks):
        chunk_start = start + chunk_idx * chunk_len
        chunk_end = min(chunk_start + chunk_len, end)
        if chunk_end - chunk_start <= 0: continue
        try:    ...write_videofile...; clips_meta.append(...)
        except Exception: continue
```
-/

/-- A sampled frame as handed to `clipper.run` (`extract_frames.run` output). -/
structure Frame where
  index : ℕ
  timestamp : ℚ
  path : String
deriving DecidableEq, Repr, Inhabited

/-- One entry of `clips_meta`; `seq`/`chunk_idx` stand in for the output file
name `clip_{seq:03d}_{chunk_idx}.mp4`. -/
structure ClipMeta where
  seq : ℕ
  chunk_idx : ℕ
  cluster_id : Int
  start_time : ℚ
  end_time : ℚ
deriving DecidableEq, Repr

/-- The two exceptions `clipper.run` can raise itself: `FileNotFoundError`
and the `ValueError` for frames lacking a cluster assignment. -/
inductive ClipperError where
| fileNotFound : ClipperError
| missingClusters : ℕ → ClipperError
deriving DecidableEq, Repr

/-- Chunk boundaries of one block `[s, e)` against the cap `M`
(`clipper.py` lines 133-151, boundary arithmetic only). -/
def chunkBounds (s e M : ℚ) : List (ℚ × ℚ) :=
  if e - s ≤ 0 then []
  else
    let n : ℕ := (max 1 ⌈(e - s) / M⌉).toNat
    let len : ℚ := min (e - s) M
    (List.range n).filterMap (fun (i : ℕ) =>
      let cs := s + (i : ℚ) * len
      let ce := min (cs + len) e
      if ce - cs ≤ 0 then none else some (cs, ce))

/-- The chunk loop for one block `b = (cid, start, end)` at block sequence
number `seq`; `ok seq ci` tells whether the external encode call for chunk
`ci` succeeds (an exception is caught and the chunk skipped). -/
def chunkMetas (ok : ℕ → ℕ → Bool) (M : ℚ) (seq : ℕ) (b : Int × ℚ × ℚ) : List ClipMeta :=
  if b.2.2 - b.2.1 ≤ 0 then []
  else
    let n : ℕ := (max 1 ⌈(b.2.2 - b.2.1) / M⌉).toNat
    let len : ℚ := min (b.2.2 - b.2.1) M
    (List.range n).filterMap (fun (ci : ℕ) =>
      let cs := b.2.1 + (ci : ℚ) * len
      let ce := min (cs + len) b.2.2
      if ce - cs ≤ 0 then none
      else if ok seq ci then some ⟨seq, ci, b.1, cs, ce⟩ else none)

/-- The block-building loop state: `cur` = `current_cluster`,
`bs` = `block_start`, `last` = `last_ts`. -/
def buildBlocksGo (cl : String → Int) : List Frame → Int → ℚ → ℚ → List (Int × ℚ × ℚ)
| [], cur, bs, last => [(cur, bs, last)]
| f :: rest, cur, bs, last =>
  if cl f.path ≠ cur then
    (cur, bs, last) :: buildBlocksGo cl rest (cl f.path) f.timestamp f.timestamp
  else
    buildBlocksGo cl rest cur bs f.timestamp

/-- `clip_blocks` from the chronologically sorted frame list. -/
def buildBlocks (df : List Frame) (cl : String → Int) : List (Int × ℚ × ℚ) :=
  match df with
  | [] => []
  | f0 :: rest => buildBlocksGo cl rest (cl f0.path) f0.timestamp f0.timestamp

/-- `clips_meta` accumulated over all blocks (`enumerate(clip_blocks)`). -/
def buildClips (ok : ℕ → ℕ → Bool) (M : ℚ) (blocks : List (Int × ℚ × ℚ)) : List ClipMeta :=
  blocks.enum.flatMap (fun p => chunkMetas ok M p.1 p.2)

/-- `clipper.run`.  `video_exists` models `video_path.exists()`; `clusters` is
the scene-assignment dict as an association list; `M` is `max_clip_seconds`;
`ok` models which external encode invocations succeed.  Directory and JSON
side effects are not modelled.  The cluster lookups after the missing-check
use `getD 0`, which the check guarantees is never the fallback. -/
def clipper_run (video_exists : Bool) (frames : List Frame)
    (clusters : List (String × Int)) (M : ℚ) (ok : ℕ → ℕ → Bool) :
    Except ClipperError (List ClipMeta) :=
  if video_exists = false then .error .fileNotFound
  else if frames.isEmpty then .ok []
  else if clusters.isEmpty then .ok []
  else
    let df := frames.mergeSort (fun a b => decide (a.index ≤ b.index))
    if df.isEmpty then .ok []
    else
      let missing := df.filter (fun f => (clusters.lookup f.path).isNone)
      if missing.isEmpty = false then .error (.missingClusters missing.length)
      else .ok (buildClips ok M (buildBlocks df (fun p => (clusters.lookup p).getD 0)))

example : chunkBounds 0 500 240 = [((0:ℚ), 240), (240, 480), (480, 500)] := by
  have hceil : ⌈((500:ℚ) - 0) / 240⌉ = 3 := by norm_num [Int.ceil_eq_iff]
  rw [chunkBounds, if_neg (by norm_num)]
  simp only [hceil, show (max 1 (3:ℤ)).toNat = 3 from rfl]
  norm_num [List.range_succ, List.filterMap_append, List.filterMap_cons]

example : chunkBounds 0 100 240 = [((0:ℚ), 100)] := by
  have hceil : ⌈((100:ℚ) - 0) / 240⌉ = 1 := by norm_num [Int.ceil_eq_iff]
  rw [chunkBounds, if_neg (by norm_num)]
  simp only [hceil, show (max 1 (1:ℤ)).toNat = 1 from rfl]
  norm_num [List.range_succ, List.filterMap_append, List.filterMap_cons]

theorem filterMap_eq_map_of_mem {α β : Type} (l : List α) (f : α → Option β) (g : α → β)
    (h : ∀ a ∈ l, f a = some (g a)) : l.filterMap f = l.map g := by
  induction l with
  | nil => rfl
  | cons x xs ih =>
    rw [List.filterMap_cons, h x (by simp), List.map_cons, ih (fun a ha => h a (by simp [ha]))]

theorem ceil_chunks_pos (s e M : ℚ) (hM : 0 < M) (hD : 0 < e - s) :
    1 ≤ ⌈(e - s) / M⌉ := by
  have h := Int.ceil_pos.mpr (div_pos hD hM)
  omega

/-- Every chunk inside the block starts strictly before the block's end. -/
theorem chunk_start_lt (s e M : ℚ) (hM : 0 < M) (hD : 0 < e - s) (i : ℕ)
    (hi : i < ⌈(e - s) / M⌉.toNat) : s + (i : ℚ) * min (e - s) M < e := by
  rcases le_or_lt (e - s) M with hDM | hDM
  · have hle : (e - s) / M ≤ ((1:ℤ) : ℚ) := by push_cast; exact (div_le_one hM).mpr hDM
    have hceil1 : ⌈(e - s) / M⌉ = 1 :=
      le_antisymm (Int.ceil_le.mpr hle) (ceil_chunks_pos s e M hM hD)
    have hi0 : i = 0 := by rw [hceil1] at hi; omega
    subst hi0
    simpa using (by linarith : s < e)
  · have hmin : min (e - s) M = M := min_eq_right hDM.le
    rw [hmin]
    have hii : ((i : ℤ) + 1) ≤ ⌈(e - s) / M⌉ := by
      have := (Int.lt_toNat).mp hi
      omega
    have h1 : ((i : ℚ) + 1) ≤ (⌈(e - s) / M⌉ : ℚ) := by exact_mod_cast hii
    have h2 : (⌈(e - s) / M⌉ : ℚ) < (e - s) / M + 1 := Int.ceil_lt_add_one _
    have h3 : (i : ℚ) < (e - s) / M := by linarith
    have h4 : (i : ℚ) * M < e - s := (lt_div_iff₀ hM).mp h3
    linarith

/-- For a block of positive duration no chunk is filtered out: `chunkBounds`
is a plain map over `range ⌈D/M⌉`. -/
theorem chunkBounds_eq_map (s e M : ℚ) (hM : 0 < M) (hD : 0 < e - s) :
    chunkBounds s e M
      = (List.range (⌈(e - s) / M⌉.toNat)).map
          (fun (i : ℕ) => (s + (i : ℚ) * min (e - s) M,
                           min (s + (i : ℚ) * min (e - s) M + min (e - s) M) e)) := by
  have hmax : max 1 ⌈(e - s) / M⌉ = ⌈(e - s) / M⌉ :=
    max_eq_right (ceil_chunks_pos s e M hM hD)
  have hlen0 : (0:ℚ) < min (e - s) M := lt_min hD hM
  rw [chunkBounds, if_neg (by linarith), hmax]
  refine filterMap_eq_map_of_mem (List.range ⌈(e - s) / M⌉.toNat) _ _ ?_
  intro i hi
  have hi' : i < ⌈(e - s) / M⌉.toNat := List.mem_range.mp hi
  have hlt := chunk_start_lt s e M hM hD i hi'
  show (if min (s + (i : ℚ) * min (e - s) M + min (e - s) M) e
            - (s + (i : ℚ) * min (e - s) M) ≤ 0
        then none
        else some (s + (i : ℚ) * min (e - s) M,
                   min (s + (i : ℚ) * min (e - s) M + min (e - s) M) e))
      = some (s + (i : ℚ) * min (e - s) M,
              min (s + (i : ℚ) * min (e - s) M + min (e - s) M) e)
  have hce : s + (i : ℚ) * min (e - s) M
      < min (s + (i : ℚ) * min (e - s) M + min (e - s) M) e :=
    lt_min (by linarith) hlt
  rw [if_neg (by linarith)]

theorem getD_map_range {β : Type} (n i : ℕ) (f : ℕ → β) (d : β) (h : i < n) :
    ((List.range n).map f).getD i d = f i := by
  rw [List.getD_eq_getElem _ _ (by simpa using h), List.getElem_map, List.getElem_range]

/-- **C2** (chunking, `clipper.py` lines 131-151).  For a block of duration
`D = e - s > 0` against cap `M > 0`: exactly `⌈D/M⌉` chunks are emitted
(one spanning the whole block when `D ≤ M`); when `D > M` the chunks are the
consecutive windows of length `M` with the last truncated to `e`; every chunk
satisfies `end > start` and `end - start ≤ M`; consecutive chunks abut. -/
theorem clipper_chunking (s e M : ℚ) (hM : 0 < M) (hD : 0 < e - s) :
    (e - s ≤ M → chunkBounds s e M = [(s, e)]) ∧
    (M < e - s →
      chunkBounds s e M
        = (List.range (⌈(e - s) / M⌉.toNat)).map
            (fun (i : ℕ) =>
              (s + (i : ℚ) * M,
               if i + 1 = ⌈(e - s) / M⌉.toNat then e else s + ((i : ℚ) + 1) * M))) ∧
    (chunkBounds s e M).length = ⌈(e - s) / M⌉.toNat ∧
    (∀ p ∈ chunkBounds s e M, p.1 < p.2 ∧ p.2 - p.1 ≤ M) ∧
    (∀ i, i + 1 < (chunkBounds s e M).length →
      ((chunkBounds s e M).getD (i+1) (0, 0)).1 = ((chunkBounds s e M).getD i (0, 0)).2) := by
  have hmap := chunkBounds_eq_map s e M hM hD
  have hn1 : 1 ≤ ⌈(e - s) / M⌉ := ceil_chunks_pos s e M hM hD
  refine ⟨?_, ?_, ?_, ?_, ?_⟩
  · intro hDM
    have hle : (e - s) / M ≤ ((1:ℤ) : ℚ) := by push_cast; exact (div_le_one hM).mpr hDM
    have hceil1 : ⌈(e - s) / M⌉ = 1 := le_antisymm (Int.ceil_le.mpr hle) hn1
    rw [hmap, hceil1]
    have hminD : min (e - s) M = e - s := min_eq_left hDM
    rw [show ((1:ℤ).toNat) = 1 from rfl, show List.range 1 = [0] from rfl,
      List.map_singleton, hminD]
    have h0 : s + ((0:ℕ) : ℚ) * (e - s) = s := by push_cast; ring
    rw [h0, show s + (e - s) = e by ring, min_self]
  · intro hDM
    rw [hmap]
    apply List.map_congr_left
    intro i hi
    have hi' : i < ⌈(e - s) / M⌉.toNat := List.mem_range.mp hi
    have hmin : min (e - s) M = M := min_eq_right hDM.le
    rw [hmin]
    by_cases hlast : i + 1 = ⌈(e - s) / M⌉.toNat
    · rw [if_pos hlast]
      have hcast : (⌈(e - s) / M⌉ : ℚ) = ((i : ℚ) + 1) := by
        have h' : ((i:ℤ) + 1) = ⌈(e - s) / M⌉ := by
          have := congrArg (fun n : ℕ => (n : ℤ)) hlast
          simpa [Int.toNat_of_nonneg (by omega : (0:ℤ) ≤ ⌈(e - s) / M⌉)] using this
        exact_mod_cast h'.symm
      have hDle : e - s ≤ ((i : ℚ) + 1) * M := by
        have h5 : (e - s) / M ≤ (⌈(e - s) / M⌉ : ℚ) := Int.le_ceil _
        rw [hcast] at h5
        calc e - s = ((e - s) / M) * M := by field_simp
          _ ≤ ((i : ℚ) + 1) * M := by
            exact mul_le_mul_of_nonneg_right h5 hM.le
      have : min (s + (i:ℚ) * M + M) e = e := min_eq_right (by linarith)
      rw [this]
    · rw [if_neg hlast]
      have hii : (i:ℤ) + 1 < ⌈(e - s) / M⌉ := by
        have h6 : i + 1 < ⌈(e - s) / M⌉.toNat := by omega
        have := (Int.lt_toNat).mp h6
        omega
      have h1 : ((i : ℚ) + 1 + 1) ≤ (⌈(e - s) / M⌉ : ℚ) := by exact_mod_cast hii
      have h2 : (⌈(e - s) / M⌉ : ℚ) < (e - s) / M + 1 := Int.ceil_lt_add_one _
      have h3 : ((i:ℚ) + 1) < (e - s) / M := by linarith
      have h4 : ((i:ℚ) + 1) * M < e - s := (lt_div_iff₀ hM).mp h3
      have h5 : (i:ℚ) * M + M < e - s := by
        have : ((i:ℚ) + 1) * M = (i:ℚ) * M + M := by ring
        linarith [this ▸ h4]
      have hminl : min (s + (i:ℚ) * M + M) e = s + (i:ℚ) * M + M :=
        min_eq_left (by linarith)
      rw [hminl]
      have : s + (i:ℚ) * M + M = s + ((i:ℚ) + 1) * M := by ring
      rw [this]
  · rw [hmap]; simp
  · intro p hp
    rw [hmap] at hp
    obtain ⟨i, hi, rfl⟩ := List.mem_map.mp hp
    have hi' : i < ⌈(e - s) / M⌉.toNat := List.mem_range.mp hi
    have hlen0 : (0:ℚ) < min (e - s) M := lt_min hD hM
    have hlt := chunk_start_lt s e M hM hD i hi'
    constructor
    · show s + (i:ℚ) * min (e - s) M < min (s + (i:ℚ) * min (e - s) M + min (e - s) M) e
      exact lt_min (by linarith) hlt
    · show min (s + (i:ℚ) * min (e - s) M + min (e - s) M) e
          - (s + (i:ℚ) * min (e - s) M) ≤ M
      have hminr : min (s + (i:ℚ) * min (e - s) M + min (e - s) M) e
          ≤ s + (i:ℚ) * min (e - s) M + min (e - s) M := min_le_left _ _
      have hminM : min (e - s) M ≤ M := min_le_right _ _
      linarith
  · intro i hi1
    have hlenc : (chunkBounds s e M).length = ⌈(e - s) / M⌉.toNat := by rw [hmap]; simp
    rw [hlenc] at hi1
    rw [hmap, getD_map_range _ _ _ _ (by omega), getD_map_range _ _ _ _ (by omega)]
    have hlt := chunk_start_lt s e M hM hD (i+1) (by omega)
    have hminl : min (s + (i:ℚ) * min (e - s) M + min (e - s) M) e
        = s + (i:ℚ) * min (e - s) M + min (e - s) M := by
      apply min_eq_left
      have : s + ((i:ℚ) + 1) * min (e - s) M < e := by push_cast at hlt; linarith [hlt]
      nlinarith [this]
    simp only [hminl]
    push_cast
    ring

/-- Witness for C2 at the spec's example: block duration 500, cap 240 gives
exactly the three chunks `[0,240)`, `[240,480)`, `[480,500)`, each of
positive duration at most 240. -/
theorem clipper_chunking_witness :
    chunkBounds 0 500 240 = [((0:ℚ), 240), (240, 480), (480, 500)] ∧
    (∀ p ∈ chunkBounds (0:ℚ) 500 240, p.1 < p.2 ∧ p.2 - p.1 ≤ 240) := by
  constructor
  · have hceil : ⌈((500:ℚ) - 0) / 240⌉ = 3 := by norm_num [Int.ceil_eq_iff]
    rw [chunkBounds, if_neg (by norm_num)]
    simp only [hceil, show (max 1 (3:ℤ)).toNat = 3 from rfl]
    norm_num [List.range_succ, List.filterMap_append, List.filterMap_cons]
  · exact (clipper_chunking 0 500 240 (by norm_num) (by norm_num)).2.2.2.1

/-- **C6** (empty-input law, `clipper.py` lines 67-97).  With the video file
present, an empty frame list or an empty scene-assignment mapping makes
`clipper.run` return an empty clip list and raise no error. -/
theorem clipper_empty_input (frames : List Frame) (clusters : List (String × Int))
    (M : ℚ) (ok : ℕ → ℕ → Bool) (h : frames = [] ∨ clusters = []) :
    clipper_run true frames clusters M ok = .ok [] := by
  rcases h with h | h
  · subst h; simp [clipper_run]
  · subst h; simp [clipper_run]

/-- Witness for C6: one frame but an empty mapping (and, symmetrically inside
the theorem, no frames) yields `.ok []`. -/
theorem clipper_empty_input_witness :
    clipper_run true [⟨0, 0, "frames/frame_000000.jpg"⟩] [] 240 (fun _ _ => true) = .ok [] :=
  clipper_empty_input _ _ _ _ (Or.inr rfl)

/-- **C4** (integrity check, `clipper.py` lines 99-103).  With a non-empty
frame list and non-empty mapping, if any sampled frame's path has no cluster
assignment, `clipper.run` raises the fatal `ValueError` (with the positive
count of missing frames) before any blocks are built, instead of recovering. -/
theorem clipper_missing_assignment_fatal (frames : List Frame)
    (clusters : List (String × Int)) (M : ℚ) (ok : ℕ → ℕ → Bool)
    (hf : frames ≠ []) (hc : clusters ≠ [])
    (hmiss : ∃ f ∈ frames, clusters.lookup f.path = none) :
    ∃ n, 0 < n ∧ clipper_run true frames clusters M ok = .error (.missingClusters n) := by
  obtain ⟨f, hfm, hfl⟩ := hmiss
  have hfd : f ∈ frames.mergeSort (fun a b => decide (a.index ≤ b.index)) :=
    List.mem_mergeSort.mpr hfm
  have hdfne : (frames.mergeSort (fun a b => decide (a.index ≤ b.index))).isEmpty = false :=
    List.isEmpty_eq_false.mpr (List.ne_nil_of_mem hfd)
  have hfm2 : f ∈ (frames.mergeSort (fun a b => decide (a.index ≤ b.index))).filter
      (fun f => (clusters.lookup f.path).isNone) :=
    List.mem_filter.mpr ⟨hfd, by simp [hfl]⟩
  have hmne : ((frames.mergeSort (fun a b => decide (a.index ≤ b.index))).filter
      (fun f => (clusters.lookup f.path).isNone)).isEmpty = false :=
    List.isEmpty_eq_false.mpr (List.ne_nil_of_mem hfm2)
  refine ⟨((frames.mergeSort (fun a b => decide (a.index ≤ b.index))).filter
      (fun f => (clusters.lookup f.path).isNone)).length,
    List.length_pos.mpr (List.ne_nil_of_mem hfm2), ?_⟩
  simp [clipper_run, List.isEmpty_eq_false.mpr hf, List.isEmpty_eq_false.mpr hc,
    hdfne, hmne]

/-- Witness for C4: one frame whose path is absent from a non-empty mapping. -/
theorem clipper_missing_assignment_fatal_witness :
    ∃ n, 0 < n ∧
      clipper_run true [⟨0, 0, "frames/frame_000000.jpg"⟩] [("other.jpg", 0)] 240
          (fun _ _ => true)
        = .error (.missingClusters n) :=
  clipper_missing_assignment_fatal _ _ _ _ (by simp) (by simp)
    ⟨⟨0, 0, "frames/frame_000000.jpg"⟩, by simp, by decide⟩

/-- Let-free unfolding of `chunkMetas`. -/
theorem chunkMetas_eq (ok : ℕ → ℕ → Bool) (M : ℚ) (seq : ℕ) (b : Int × ℚ × ℚ) :
    chunkMetas ok M seq b
      = if b.2.2 - b.2.1 ≤ 0 then []
        else (List.range ((max 1 ⌈(b.2.2 - b.2.1) / M⌉).toNat)).filterMap (fun (ci : ℕ) =>
          if min (b.2.1 + (ci : ℚ) * min (b.2.2 - b.2.1) M + min (b.2.2 - b.2.1) M) b.2.2
              - (b.2.1 + (ci : ℚ) * min (b.2.2 - b.2.1) M) ≤ 0 then none
          else if ok seq ci then
            some ⟨seq, ci, b.1, b.2.1 + (ci : ℚ) * min (b.2.2 - b.2.1) M,
                  min (b.2.1 + (ci : ℚ) * min (b.2.2 - b.2.1) M + min (b.2.2 - b.2.1) M) b.2.2⟩
          else none) := rfl

theorem chunkMetas_filter (ok : ℕ → ℕ → Bool) (M : ℚ) (seq : ℕ) (b : Int × ℚ × ℚ) :
    chunkMetas ok M seq b
      = (chunkMetas (fun _ _ => true) M seq b).filter (fun m => ok m.seq m.chunk_idx) := by
  rw [chunkMetas_eq, chunkMetas_eq]
  by_cases hd : b.2.2 - b.2.1 ≤ 0
  · rw [if_pos hd, if_pos hd]; rfl
  · rw [if_neg hd, if_neg hd, List.filter_filterMap]
    apply List.filterMap_congr
    intro ci _
    by_cases hce : min (b.2.1 + (ci : ℚ) * min (b.2.2 - b.2.1) M + min (b.2.2 - b.2.1) M) b.2.2
        - (b.2.1 + (ci : ℚ) * min (b.2.2 - b.2.1) M) ≤ 0
    · simp [hce, Option.filter]
    · by_cases hok : ok seq ci
      · simp [hce, hok, Option.filter]
      · simp [hce, hok, Option.filter]

theorem buildClips_filter (ok : ℕ → ℕ → Bool) (M : ℚ) (blocks : List (Int × ℚ × ℚ)) :
    buildClips ok M blocks
      = (buildClips (fun _ _ => true) M blocks).filter (fun m => ok m.seq m.chunk_idx) := by
  rw [buildClips, buildClips, List.filter_flatMap]
  congr 1
  funext p
  exact chunkMetas_filter ok M p.1 p.2

/-- **C5** (partial-failure isolation, `clipper.py` lines 164-188).  If the
run with all encode invocations succeeding returns clip list `L`, then the
run in which the encode of chunk `(seq, chunk_idx)` fails whenever
`ok seq chunk_idx = false` still returns successfully, with exactly the
failing chunks dropped from `L`: no error reaches the caller. -/
theorem clipper_partial_failure_isolation (frames : List Frame)
    (clusters : List (String × Int)) (M : ℚ) (ok : ℕ → ℕ → Bool) (L : List ClipMeta)
    (h : clipper_run true frames clusters M (fun _ _ => true) = .ok L) :
    clipper_run true frames clusters M ok
      = .ok (L.filter (fun m => ok m.seq m.chunk_idx)) := by
  by_cases h1 : frames.isEmpty
  · have hL : L = [] := by
      have := h
      simp [clipper_run, h1] at this
      exact this
    subst hL
    simp [clipper_run, h1]
  · by_cases h2 : clusters.isEmpty
    · have hL : L = [] := by
        have := h
        simp [clipper_run, h1, h2] at this
        exact this
      subst hL
      simp [clipper_run, h1, h2]
    · by_cases h3 : (frames.mergeSort (fun a b => decide (a.index ≤ b.index))).isEmpty
      · have hL : L = [] := by
          have := h
          simp [clipper_run, h1, h2, h3] at this
          exact this
        subst hL
        simp [clipper_run, h1, h2, h3]
      · by_cases h4 : ((frames.mergeSort (fun a b => decide (a.index ≤ b.index))).filter
            (fun f => (clusters.lookup f.path).isNone)).isEmpty
        · have hL : L = buildClips (fun _ _ => true) M
              (buildBlocks (frames.mergeSort (fun a b => decide (a.index ≤ b.index)))
                (fun p => (clusters.lookup p).getD 0)) := by
            have := h
            simp [clipper_run, h1, h2, h3, h4] at this
            exact this.symm
          subst hL
          simp [clipper_run, h1, h2, h3, h4]
          exact buildClips_filter ok M _
        · exfalso
          have := h
          simp [clipper_run, h1, h2, h3, h4] at this

/-- Witness for C5: a two-frame, one-block, one-chunk job whose single encode
invocation fails yields `.ok` of the full list filtered by the failure mask
(here the empty list), not an error. -/
theorem clipper_partial_failure_isolation_witness :
    clipper_run true [⟨0, 0, "a"⟩, ⟨1, 240, "b"⟩] [("a", 0), ("b", 0)] 240 (fun _ _ => false)
      = .ok (([⟨0, 0, 0, 0, 240⟩] : List ClipMeta).filter
          (fun m => (fun _ _ => false) m.seq m.chunk_idx)) :=
  clipper_partial_failure_isolation _ _ _ _ _ (by
    have hms : ([⟨0, 0, "a"⟩, ⟨1, 240, "b"⟩] : List Frame).mergeSort
        (fun a b => decide (a.index ≤ b.index))
        = [⟨0, 0, "a"⟩, ⟨1, 240, "b"⟩] := List.mergeSort_of_sorted (by decide)
    rw [clipper_run]
    simp [hms, List.lookup, buildBlocks, buildBlocksGo, buildClips, chunkMetas, List.enum]
    norm_num [show List.range 1 = [0] from rfl, List.filterMap_cons])

/-- Membership in one block's chunk list forces the block to have positive
duration and stamps the block's cluster id on the clip. -/
theorem chunkMetas_mem (ok : ℕ → ℕ → Bool) (M : ℚ) (seq : ℕ) (b : Int × ℚ × ℚ)
    (m : ClipMeta) (hm : m ∈ chunkMetas ok M seq b) :
    m.cluster_id = b.1 ∧ ¬(b.2.2 - b.2.1 ≤ 0) := by
  rw [chunkMetas_eq] at hm
  by_cases hd : b.2.2 - b.2.1 ≤ 0
  · rw [if_pos hd] at hm; simp at hm
  · rw [if_neg hd] at hm
    refine ⟨?_, hd⟩
    obtain ⟨ci, -, hfm⟩ := List.mem_filterMap.mp hm
    by_cases hce : min (b.2.1 + (ci : ℚ) * min (b.2.2 - b.2.1) M + min (b.2.2 - b.2.1) M) b.2.2
        - (b.2.1 + (ci : ℚ) * min (b.2.2 - b.2.1) M) ≤ 0
    · rw [if_pos hce] at hfm; exact absurd hfm (by simp)
    · rw [if_neg hce] at hfm
      by_cases hok : ok seq ci
      · rw [if_pos hok] at hfm
        have := Option.some.inj hfm
        rw [← this]
      · rw [if_neg hok] at hfm; exact absurd hfm (by simp)

/-- Inside the block-building loop: if the incoming current-cluster equals
`cid` only with `block_start = last_ts` and the next frame leaves `cid`, and
no two adjacent remaining frames both carry `cid`, then every emitted block
with cluster `cid` has `start_time = end_time`. -/
theorem buildBlocksGo_single (cl : String → Int) (cid : Int) :
    ∀ (rest : List Frame) (cur : Int) (bs last : ℚ),
      (cur = cid → bs = last ∧ (∀ f ∈ rest.head?, cl f.path ≠ cid)) →
      List.Chain' (fun a b => ¬(cl a.path = cid ∧ cl b.path = cid)) rest →
      ∀ b ∈ buildBlocksGo cl rest cur bs last, b.1 = cid → b.2.1 = b.2.2 := by
  intro rest
  induction rest with
  | nil =>
    intro cur bs last h1 _ b hb hcid
    simp only [buildBlocksGo, List.mem_singleton] at hb
    subst hb
    exact (h1 hcid).1
  | cons f rest ih =>
    intro cur bs last h1 hchain b hb hcid
    by_cases hne : cl f.path ≠ cur
    · rw [buildBlocksGo, if_pos hne] at hb
      rcases List.mem_cons.mp hb with hb1 | hb2
      · subst hb1
        exact (h1 hcid).1
      · refine ih (cl f.path) f.timestamp f.timestamp ?_ (List.chain'_cons'.mp hchain).2
          b hb2 hcid
        intro hcf
        refine ⟨rfl, fun g hg hgc => ?_⟩
        exact (List.chain'_cons'.mp hchain).1 g hg ⟨hcf, hgc⟩
    · push_neg at hne
      rw [buildBlocksGo, if_neg (by simp [hne])] at hb
      refine ih cur bs f.timestamp ?_ (List.chain'_cons'.mp hchain).2 b hb hcid
      intro hcur
      exfalso
      exact (h1 hcur).2 f rfl (hne.trans hcur)

/-- **C9** (implicit; `clipper.py` lines 105-121 and 132-138).  When no two
chronologically adjacent sampled frames both carry scene id `cid` — i.e.
every contiguous run of `cid` covers exactly one sampled frame — every Block
built for `cid` has `end_time = start_time` (the block's end is its last
frame's timestamp, not the next block's start), such zero-duration blocks are
skipped, and consequently the job completes without error with no ClipSpec
for `cid` in the output. -/
theorem clipper_single_frame_scene_no_clips (frames : List Frame)
    (clusters : List (String × Int)) (M : ℚ) (ok : ℕ → ℕ → Bool) (cid : Int)
    (hf : frames ≠ []) (hc : clusters ≠ [])
    (hcov : ∀ f ∈ frames, (clusters.lookup f.path).isSome)
    (hsingle : List.Chain'
        (fun a b => ¬((clusters.lookup a.path).getD 0 = cid
                    ∧ (clusters.lookup b.path).getD 0 = cid))
        (frames.mergeSort (fun a b => decide (a.index ≤ b.index)))) :
    (∀ b ∈ buildBlocks (frames.mergeSort (fun a b => decide (a.index ≤ b.index)))
        (fun p => (clusters.lookup p).getD 0), b.1 = cid → b.2.1 = b.2.2) ∧
    ∃ L, clipper_run true frames clusters M ok = .ok L ∧ ∀ m ∈ L, m.cluster_id ≠ cid := by
  have hblocks : ∀ b ∈ buildBlocks (frames.mergeSort (fun a b => decide (a.index ≤ b.index)))
      (fun p => (clusters.lookup p).getD 0), b.1 = cid → b.2.1 = b.2.2 := by
    have main : ∀ (df : List Frame),
        List.Chain' (fun a b => ¬((clusters.lookup a.path).getD 0 = cid
                    ∧ (clusters.lookup b.path).getD 0 = cid)) df →
        ∀ b ∈ buildBlocks df (fun p => (clusters.lookup p).getD 0),
          b.1 = cid → b.2.1 = b.2.2 := by
      intro df hch b hb hcid
      cases df with
      | nil => simp [buildBlocks] at hb
      | cons f0 rest =>
        refine buildBlocksGo_single _ cid rest _ f0.timestamp f0.timestamp ?_
          (List.chain'_cons'.mp hch).2 b hb hcid
        intro h0
        refine ⟨rfl, fun g hg hgc => ?_⟩
        exact (List.chain'_cons'.mp hch).1 g hg ⟨h0, hgc⟩
    exact main _ hsingle
  refine ⟨hblocks, ?_⟩
  obtain ⟨f1, hf1⟩ := List.exists_mem_of_ne_nil frames hf
  have hdf1 : f1 ∈ frames.mergeSort (fun a b => decide (a.index ≤ b.index)) :=
    List.mem_mergeSort.mpr hf1
  have hdfne : (frames.mergeSort (fun a b => decide (a.index ≤ b.index))).isEmpty = false :=
    List.isEmpty_eq_false.mpr (List.ne_nil_of_mem hdf1)
  have hmiss : ((frames.mergeSort (fun a b => decide (a.index ≤ b.index))).filter
      (fun f => (clusters.lookup f.path).isNone)) = [] := by
    rw [List.filter_eq_nil_iff]
    intro f hfm
    have := hcov f (List.mem_mergeSort.mp hfm)
    simp [Option.isNone_iff_eq_none] at this ⊢
    exact this
  refine ⟨buildClips ok M (buildBlocks (frames.mergeSort (fun a b => decide (a.index ≤ b.index)))
      (fun p => (clusters.lookup p).getD 0)), ?_, ?_⟩
  · simp [clipper_run, List.isEmpty_eq_false.mpr hf, List.isEmpty_eq_false.mpr hc,
      hdfne, hmiss]
  · intro m hm
    rw [buildClips] at hm
    obtain ⟨p, hp, hmc⟩ := List.mem_flatMap.mp hm
    have hpm : p.2 ∈ buildBlocks (frames.mergeSort (fun a b => decide (a.index ≤ b.index)))
        (fun q => (clusters.lookup q).getD 0) := by
      have := List.mem_enum_iff_getElem?.mp hp
      exact List.getElem?_mem this
    obtain ⟨hcl, hdur⟩ := chunkMetas_mem ok M p.1 p.2 m hmc
    intro hmeq
    have hzero := hblocks p.2 hpm (by rw [← hcl, hmeq])
    exact hdur (by rw [hzero]; ring_nf; exact le_refl 0)

/-- Witness for C9: scene id 1 appears only at the single middle frame of
three; its block is zero-duration and contributes no clip, with no error. -/
theorem clipper_single_frame_scene_no_clips_witness :
    (∀ b ∈ buildBlocks (([⟨0, 0, "a"⟩, ⟨1, 240, "b"⟩, ⟨2, 480, "c"⟩] : List Frame).mergeSort
        (fun a b => decide (a.index ≤ b.index)))
        (fun p => (([("a", 0), ("b", 1), ("c", 0)] : List (String × Int)).lookup p).getD 0),
      b.1 = 1 → b.2.1 = b.2.2) ∧
    ∃ L, clipper_run true [⟨0, 0, "a"⟩, ⟨1, 240, "b"⟩, ⟨2, 480, "c"⟩]
        [("a", 0), ("b", 1), ("c", 0)] 240 (fun _ _ => true) = .ok L ∧
      ∀ m ∈ L, m.cluster_id ≠ 1 := by
  have hms : ([⟨0, 0, "a"⟩, ⟨1, 240, "b"⟩, ⟨2, 480, "c"⟩] : List Frame).mergeSort
      (fun a b => decide (a.index ≤ b.index))
      = [⟨0, 0, "a"⟩, ⟨1, 240, "b"⟩, ⟨2, 480, "c"⟩] := List.mergeSort_of_sorted (by decide)
  exact clipper_single_frame_scene_no_clips _ _ 240 _ 1 (by simp) (by simp)
    (by decide) (by rw [hms]; simp [List.chain'_cons, List.lookup])

/-! ## config.py (lines 91-177) and pipeline.py (lines 64-80): memory guard

```python
def check_memory_limit() -> bool:
    memory_info = get_memory_usage()
    if not memory_info["available"]: return True
    if memory_info["used_mb"] > MAX_MEMORY_MB: return False
    if memory_info["percent"] > (MEMORY_CRITICAL_THRESHOLD * 100): return False
    ...
    return True

def assert_memory_available():
    memory_info = get_memory_usage()
    if not memory_info["available"]: return
    if memory_info["used_mb"] > MAX_MEMORY_MB:
        raise MemoryLimitExceededError(memory_info["used_mb"], MAX_MEMORY_MB)
    if memory_info["percent"] > (MEMORY_CRITICAL_THRESHOLD * 100):
        raise MemoryLimitExceededError(memory_info["used_mb"], MAX_MEMORY_MB)

def check_memory():                      # pipeline.py, called between stages
    if IS_RENDER: return True
    ...
    if not check_memory_limit():
        force_memory_cleanup()
        return check_memory_limit()      # result ignored by every caller
    return True
```
-/

/-- Result of `get_memory_usage()`; `total_mb` is never consulted by the
guard logic and is omitted. -/
structure MemoryInfo where
  available : Bool
  percent : ℚ
  used_mb : ℚ
deriving DecidableEq, Repr

def MAX_MEMORY_MB : ℚ := 450
def MEMORY_WARNING_THRESHOLD : ℚ := 8/10
def MEMORY_CRITICAL_THRESHOLD : ℚ := 9/10

/-- `config.check_memory_limit`, as a function of the queried usage. -/
def check_memory_limit (m : MemoryInfo) : Bool :=
  if m.available = false then true
  else if m.used_mb > MAX_MEMORY_MB then false
  else if m.percent > MEMORY_CRITICAL_THRESHOLD * 100 then false
  else true

/-- `config.MemoryLimitExceededError(current_mb, limit_mb)`. -/
structure MemoryLimitExceededError where
  current_mb : ℚ
  limit_mb : ℚ
deriving DecidableEq, Repr

/-- `config.assert_memory_available`, as a function of the queried usage. -/
def assert_memory_available (m : MemoryInfo) : Except MemoryLimitExceededError Unit :=
  if m.available = false then .ok ()
  else if m.used_mb > MAX_MEMORY_MB then .error ⟨m.used_mb, MAX_MEMORY_MB⟩
  else if m.percent > MEMORY_CRITICAL_THRESHOLD * 100 then .error ⟨m.used_mb, MAX_MEMORY_MB⟩
  else .ok ()

/-- `pipeline.run.check_memory`, the guard actually consulted between stages:
`m1` is the usage at the first query, `m2` the re-query after
`force_memory_cleanup()`.  Its result type is `Except` precisely to record
that *no* code path raises: every branch is `.ok`. -/
def check_memory (is_render : Bool) (m1 m2 : MemoryInfo) :
    Except MemoryLimitExceededError Bool :=
  if is_render then .ok true
  else if check_memory_limit m1 then .ok true
  else .ok (check_memory_limit m2)

/-- **C3 counterexample.**  Usage at 95% — above the critical threshold — both
before and after forced reclamation: the between-stage guard returns
`.ok false` and raises nothing, so no resource-exhaustion failure aborts the
job, contradicting the claim. -/
theorem memory_guard_counterexample :
    MEMORY_CRITICAL_THRESHOLD * 100 < (⟨true, 95, 400⟩ : MemoryInfo).percent ∧
    check_memory_limit ⟨true, 95, 400⟩ = false ∧
    check_memory false ⟨true, 95, 400⟩ ⟨true, 95, 400⟩ = .ok false ∧
    ¬ ∃ err, check_memory false ⟨true, 95, 400⟩ ⟨true, 95, 400⟩ = .error err := by
  have hlim : check_memory_limit ⟨true, 95, 400⟩ = false := by
    rw [check_memory_limit]
    norm_num [MAX_MEMORY_MB, MEMORY_CRITICAL_THRESHOLD]
  refine ⟨by norm_num [MEMORY_CRITICAL_THRESHOLD], hlim, ?_, ?_⟩
  · rw [check_memory]
    simp [hlim]
  · rintro ⟨err, herr⟩
    rw [check_memory] at herr
    simp [hlim] at herr

/-- **C3 amended** (`pipeline.py` lines 64-80, `config.py` lines 159-177).
When the between-stage memory guard's first query is over the limit, it
forces reclamation, re-queries, and *returns* the boolean re-check result —
it raises nothing, so the job continues even when the re-query is still over
the critical threshold.  The raising behaviour the spec describes lives only
in `config.assert_memory_available`, which no pipeline stage invokes: for any
measurement that is available and over a limit it raises
`MemoryLimitExceededError` carrying the measured `used_mb` and the configured
`MAX_MEMORY_MB`. -/
theorem memory_guard_no_raise_between_stages (m1 m2 : MemoryInfo)
    (h1 : check_memory_limit m1 = false) :
    check_memory false m1 m2 = .ok (check_memory_limit m2) ∧
    (∀ m : MemoryInfo, m.available = true → check_memory_limit m = false →
      assert_memory_available m = .error ⟨m.used_mb, MAX_MEMORY_MB⟩) := by
  constructor
  · rw [check_memory]
    simp [h1]
  · intro m hav hlim
    rw [check_memory_limit, if_neg (by simp [hav])] at hlim
    rw [assert_memory_available, if_neg (by simp [hav])]
    by_cases hu : m.used_mb > MAX_MEMORY_MB
    · rw [if_pos hu]
    · rw [if_neg hu] at hlim ⊢
      by_cases hp : m.percent > MEMORY_CRITICAL_THRESHOLD * 100
      · rw [if_pos hp]
      · rw [if_neg hp] at hlim
        exact absurd hlim (by simp)

/-- Witness for the amended C3 at the counterexample's memory state. -/
theorem memory_guard_no_raise_between_stages_witness :
    check_memory false ⟨true, 95, 400⟩ ⟨true, 95, 400⟩
        = .ok (check_memory_limit ⟨true, 95, 400⟩) ∧
    (∀ m : MemoryInfo, m.available = true → check_memory_limit m = false →
      assert_memory_available m = .error ⟨m.used_mb, MAX_MEMORY_MB⟩) :=
  memory_guard_no_raise_between_stages ⟨true, 95, 400⟩ ⟨true, 95, 400⟩ (by
    rw [check_memory_limit]
    norm_num [MAX_MEMORY_MB, MEMORY_CRITICAL_THRESHOLD])

/-! ## video_io.py (lines 76-77) and extract_frames.py (lines 62-107): sampling

```python
if fps < 1e-3: fps = _FPS_FALLBACK        # video_io.get_video_props
...
step = max(int(round(props.fps / config.FRAME_RATE)), 1)
while True:
    ret, frame = cap.read()
    if not ret: break
    if frame_idx % step == 0:
        timestamp = frame_idx / props.fps
        ... index=saved_idx ...; saved_idx += 1
    frame_idx += 1
```
-/

def FRAME_RATE : ℚ := 1/2

def FPS_FALLBACK : ℚ := 30

/-- `video_io.get_video_props` fps sanitization: a near-zero reported rate is
replaced by the fixed fallback before any use. -/
def sanitizeFps (fps : ℚ) : ℚ := if fps < 1/1000 then FPS_FALLBACK else fps

/-- Python's built-in `round`: nearest integer, ties to the even neighbour. -/
def pyRound (q : ℚ) : ℤ :=
  if q - ⌊q⌋ < 1/2 then ⌊q⌋
  else if q - ⌊q⌋ > 1/2 then ⌊q⌋ + 1
  else if ⌊q⌋ % 2 = 0 then ⌊q⌋ else ⌊q⌋ + 1

/-- One record of the `extracted` list; `native` is the loop's `frame_idx`
(the position in the decode stream), kept to state the sampling law. -/
structure XFrame where
  index : ℕ
  timestamp : ℚ
  native : ℕ
deriving DecidableEq, Repr

/-- The extraction loop over the remaining `n` native frames, with
`fi = frame_idx` and `si = saved_idx`. -/
def extractLoop (fps : ℚ) (step : ℕ) : ℕ → ℕ → ℕ → List XFrame
| 0, _, _ => []
| n+1, fi, si =>
  if fi % step = 0 then ⟨si, (fi : ℚ) / fps, fi⟩ :: extractLoop fps step n (fi+1) (si+1)
  else extractLoop fps step n (fi+1) si

/-- `extract_frames.run` on a decode source reporting raw rate `rawFps` and
`total` native frames, sampled at target `rate`. -/
def extract_run (rawFps : ℚ) (total : ℕ) (rate : ℚ) : List XFrame :=
  let fps := sanitizeFps rawFps
  let step : ℕ := (max (pyRound (fps / rate)) 1).toNat
  extractLoop fps step total 0 0

theorem extractLoop_map_native (fps : ℚ) (step : ℕ) :
    ∀ (n fi si : ℕ), (extractLoop fps step n fi si).map (fun r => r.native)
      = (List.range' fi n).filter (fun i => decide (i % step = 0)) := by
  intro n
  induction n with
  | zero => intro fi si; rfl
  | succ n ih =>
    intro fi si
    rw [List.range'_succ]
    by_cases h : fi % step = 0
    · simp [extractLoop, h, ih]
    · simp [extractLoop, h, ih]

theorem extractLoop_map_index (fps : ℚ) (step : ℕ) :
    ∀ (n fi si : ℕ), (extractLoop fps step n fi si).map (fun r => r.index)
      = List.range' si ((extractLoop fps step n fi si).length) := by
  intro n
  induction n with
  | zero => intro fi si; rfl
  | succ n ih =>
    intro fi si
    by_cases h : fi % step = 0
    · simp only [extractLoop, if_pos h, List.map_cons, List.length_cons, List.range'_succ]
      rw [ih]
    · simp only [extractLoop, if_neg h]
      exact ih (fi+1) si

theorem extractLoop_timestamp (fps : ℚ) (step : ℕ) :
    ∀ (n fi si : ℕ) (rec : XFrame), rec ∈ extractLoop fps step n fi si →
      rec.timestamp = (rec.native : ℚ) / fps := by
  intro n
  induction n with
  | zero => intro fi si rec h; simp [extractLoop] at h
  | succ n ih =>
    intro fi si rec h
    by_cases hf : fi % step = 0
    · rw [extractLoop, if_pos hf] at h
      rcases List.mem_cons.mp h with h1 | h2
      · subst h1; rfl
      · exact ih (fi+1) (si+1) rec h2
    · rw [extractLoop, if_neg hf] at h
      exact ih (fi+1) si rec h

theorem sanitizeFps_pos (rawFps : ℚ) : 0 < sanitizeFps rawFps := by
  rw [sanitizeFps]
  by_cases h : rawFps < 1/1000
  · rw [if_pos h]; norm_num [FPS_FALLBACK]
  · rw [if_neg h]; push_neg at h; linarith

/-- **C7** (frame sampling, `extract_frames.py` lines 62-107 and
`video_io.py` lines 76-77).  With sanitized rate `fps` and
`step = max(round(fps / rate), 1)`: exactly the native frames whose index is
a multiple of `step` are kept, in order; kept frames get fresh contiguous
0-based indices; each timestamp is `native_index / fps`, and timestamps are
strictly increasing; a near-zero reported rate is replaced by the fixed
fallback (30) before step and timestamps are computed, and the rate used is
always positive. -/
theorem extract_frames_sampling (rawFps : ℚ) (total : ℕ) (rate : ℚ) :
    (extract_run rawFps total rate).map (fun r => r.native)
      = (List.range total).filter
          (fun i => decide (i % (max (pyRound (sanitizeFps rawFps / rate)) 1).toNat = 0)) ∧
    (extract_run rawFps total rate).map (fun r => r.index)
      = List.range (extract_run rawFps total rate).length ∧
    (∀ rec ∈ extract_run rawFps total rate,
        rec.timestamp = (rec.native : ℚ) / sanitizeFps rawFps) ∧
    List.Pairwise (fun a b : ℚ => a < b)
      ((extract_run rawFps total rate).map (fun r => r.timestamp)) ∧
    (rawFps < 1/1000 → sanitizeFps rawFps = FPS_FALLBACK) ∧
    0 < sanitizeFps rawFps := by
  have hnat := extractLoop_map_native (sanitizeFps rawFps)
    ((max (pyRound (sanitizeFps rawFps / rate)) 1).toNat) total 0 0
  have hts : ∀ rec ∈ extract_run rawFps total rate,
      rec.timestamp = (rec.native : ℚ) / sanitizeFps rawFps :=
    fun rec h => extractLoop_timestamp _ _ total 0 0 rec h
  refine ⟨?_, ?_, hts, ?_, ?_, sanitizeFps_pos rawFps⟩
  · rw [extract_run]
    rw [hnat, List.range_eq_range']
  · rw [extract_run]
    rw [extractLoop_map_index, List.range_eq_range']
  · have hmap : (extract_run rawFps total rate).map (fun r => r.timestamp)
        = ((extract_run rawFps total rate).map (fun r => r.native)).map
            (fun (n : ℕ) => (n : ℚ) / sanitizeFps rawFps) := by
      rw [List.map_map]
      exact List.map_congr_left hts
    rw [hmap]
    have hpw : List.Pairwise (fun a b : ℕ => a < b)
        ((extract_run rawFps total rate).map (fun r => r.native)) := by
      rw [extract_run]
      rw [hnat]
      exact List.Pairwise.filter _ (List.pairwise_lt_range' 0 total 1)
    refine List.Pairwise.map _ ?_ hpw
    intro a b hab
    have hcast : (a : ℚ) < (b : ℚ) := by exact_mod_cast hab
    gcongr
    exact sanitizeFps_pos rawFps
  · intro h
    rw [sanitizeFps, if_pos h]

/-- Witness for C7 at `rawFps = 0`: the degenerate reported rate is replaced
by the fallback 30, which is positive. -/
theorem extract_frames_sampling_witness :
    (0 : ℚ) < sanitizeFps 0 ∧ sanitizeFps 0 = FPS_FALLBACK :=
  ⟨(extract_frames_sampling 0 10 (1/2)).2.2.2.2.2,
   (extract_frames_sampling 0 10 (1/2)).2.2.2.2.1 (by norm_num)⟩

/-! ## select_representative_frames.py, lines 46-71

```python
grouped = defaultdict(list)
for meta in frames:
    cid = clusters[meta["path"]]          # KeyError if missing
    grouped[cid].append(meta)
for cid, items in grouped.items():        # insertion = first-occurrence order
    X = np.array([f["embedding"] for f in items])
    centroid = X.mean(axis=0, keepdims=True)
    dists = np.linalg.norm(X - centroid, axis=1)
    best_idx = int(dists.argmin())        # first index attaining the minimum
    best = items[best_idx]
    representatives.append({...})
```
-/

/-- A frame enriched with its CLIP embedding (`embed_frames.run` output). -/
structure EFrame where
  index : ℕ
  timestamp : ℚ
  path : String
  embedding : List ℚ
deriving DecidableEq, Repr, Inhabited

/-- One entry of `representatives`. -/
structure Rep where
  cluster : Int
  timestamp : ℚ
  index : ℕ
  path : String
  embedding : List ℚ
deriving DecidableEq, Repr

def addVec (u v : List ℚ) : List ℚ := List.zipWith (fun a b => a + b) u v

/-- `X.mean(axis=0)`: componentwise sum of the group's embeddings divided by
the group size. -/
def centroid (X : List (List ℚ)) : List ℚ :=
  match X with
  | [] => []
  | v :: rest => (rest.foldl addVec v).map (fun x => x / ((rest.length + 1 : ℕ) : ℚ))

/-- Squared Euclidean distance.  `np.linalg.norm` takes the square root, but
squaring is strictly monotone on nonnegative reals, so `argmin` over squared
distances selects exactly the frame of minimal Euclidean distance, with the
same tie behaviour. -/
def distSq (u v : List ℚ) : ℚ := (List.zipWith (fun a b => (a - b)^2) u v).sum

/-- `numpy.argmin` scan: current index `i`, best index `bi`, best value `bv`;
a strictly smaller value updates the best, so the first minimum wins. -/
def argminAux : List ℚ → ℕ → ℕ → ℚ → ℕ
| [], _, bi, _ => bi
| x :: xs, i, bi, bv => if x < bv then argminAux xs (i+1) i x else argminAux xs (i+1) bi bv

def argminIdx : List ℚ → ℕ
| [] => 0
| v :: rest => argminAux rest 1 0 v

/-- The distinct values of `l` in order of first occurrence — the iteration
order of the Python `defaultdict` built by appending in frame order. -/
def firstOccurrences : List Int → List Int
| [] => []
| x :: xs => x :: firstOccurrences (xs.filter (fun y => decide (y ≠ x)))
termination_by l => l.length
decreasing_by
  simp only [List.length_cons]
  exact Nat.lt_succ_of_le (List.length_filter_le _ _)

/-- The grouping loop's cluster lookups: the first frame whose path is absent
from the mapping raises `KeyError` (modelled as `.error` carrying the path). -/
def lookupAll : List EFrame → List (String × Int) → Except String (List (Int × EFrame))
| [], _ => .ok []
| f :: rest, cl =>
  match cl.lookup f.path with
  | none => .error f.path
  | some c =>
    match lookupAll rest cl with
    | .error e => .error e
    | .ok ps => .ok ((c, f) :: ps)

def mkRep (c : Int) (f : EFrame) : Rep := ⟨c, f.timestamp, f.index, f.path, f.embedding⟩

/-- `select_representative_frames.run`: group by cluster id in
first-occurrence order, then per group pick the member whose embedding is
closest to the group centroid, first index winning ties. -/
def select_run (frames : List EFrame) (clusters : List (String × Int)) :
    Except String (List Rep) :=
  match lookupAll frames clusters with
  | .error e => .error e
  | .ok pairs =>
    .ok ((firstOccurrences (pairs.map (fun p => p.1))).map (fun c =>
      let items := (pairs.filter (fun p => decide (p.1 = c))).map (fun p => p.2)
      let dists := (items.map (fun f => f.embedding)).map
          (fun v => distSq v (centroid (items.map (fun f => f.embedding))))
      mkRep c (items.getD (argminIdx dists) default)))

/-- **C10** (implicit; `select_representative_frames.py` lines 46-49).  The
selector performs no integrity check: as soon as some frame's path is absent
from the scene-assignment mapping, the grouping loop's bare dict access
raises an unhandled `KeyError` — total coverage is an unstated precondition. -/
theorem select_reps_keyerror (frames : List EFrame) (clusters : List (String × Int))
    (h : ∃ f ∈ frames, clusters.lookup f.path = none) :
    ∃ e, select_run frames clusters = .error e := by
  suffices h2 : ∃ e, lookupAll frames clusters = .error e by
    obtain ⟨e, he⟩ := h2
    exact ⟨e, by rw [select_run, he]⟩
  obtain ⟨f, hfm, hfl⟩ := h
  induction frames with
  | nil => simp at hfm
  | cons g rest ih =>
    rcases List.mem_cons.mp hfm with h1 | h2
    · subst h1
      exact ⟨f.path, by simp [lookupAll, hfl]⟩
    · cases hgl : clusters.lookup g.path with
      | none => exact ⟨g.path, by simp [lookupAll, hgl]⟩
      | some c =>
        obtain ⟨e, he⟩ := ih h2
        exact ⟨e, by simp [lookupAll, hgl, he]⟩

/-- Witness for C10: one frame, mapping keyed by a different path. -/
theorem select_reps_keyerror_witness :
    ∃ e, select_run [⟨0, 0, "frames/frame_000000.jpg", [1, 0]⟩] [("other.jpg", 0)] = .error e :=
  select_reps_keyerror _ _ ⟨⟨0, 0, "frames/frame_000000.jpg", [1, 0]⟩, by simp, by decide⟩

theorem argminAux_spec : ∀ (xs : List ℚ) (i bi : ℕ) (bv : ℚ), bi < i →
    (argminAux xs i bi bv = bi ∧ (∀ j, j < xs.length → bv ≤ xs.getD j 0)) ∨
    (∃ k, k < xs.length ∧ argminAux xs i bi bv = i + k ∧
      xs.getD k 0 < bv ∧
      (∀ j, j < xs.length → xs.getD k 0 ≤ xs.getD j 0) ∧
      (∀ j, j < k → xs.getD k 0 < xs.getD j 0)) := by
  intro xs
  induction xs with
  | nil =>
    intro i bi bv _
    left
    exact ⟨rfl, fun j hj => absurd hj (by simp)⟩
  | cons x xs ih =>
    intro i bi bv hbi
    by_cases hx : x < bv
    · rw [argminAux, if_pos hx]
      rcases ih (i+1) i x (by omega) with ⟨hr, hall⟩ | ⟨k, hk, hr, hlt, hle, hstrict⟩
      · right
        refine ⟨0, by simp, by omega, by simpa using hx, ?_, ?_⟩
        · intro j hj
          cases j with
          | zero => simp
          | succ j' =>
            simp only [List.getD_cons_zero, List.getD_cons_succ]
            exact hall j' (by simpa using hj)
        · intro j hj; omega
      · right
        refine ⟨k + 1, by simpa using hk, by omega, ?_, ?_, ?_⟩
        · simpa using lt_trans hlt hx
        · intro j hj
          cases j with
          | zero =>
            simp only [List.getD_cons_succ, List.getD_cons_zero]
            exact le_of_lt hlt
          | succ j' =>
            simp only [List.getD_cons_succ]
            exact hle j' (by simpa using hj)
        · intro j hj
          cases j with
          | zero =>
            simp only [List.getD_cons_succ, List.getD_cons_zero]
            exact hlt
          | succ j' =>
            simp only [List.getD_cons_succ]
            exact hstrict j' (by omega)
    · rw [argminAux, if_neg hx]
      push_neg at hx
      rcases ih (i+1) bi bv (by omega) with ⟨hr, hall⟩ | ⟨k, hk, hr, hlt, hle, hstrict⟩
      · left
        refine ⟨hr, ?_⟩
        intro j hj
        cases j with
        | zero => simpa using hx
        | succ j' =>
          simp only [List.getD_cons_succ]
          exact hall j' (by simpa using hj)
      · right
        refine ⟨k + 1, by simpa using hk, by omega, ?_, ?_, ?_⟩
        · simpa using hlt
        · intro j hj
          cases j with
          | zero =>
            simp only [List.getD_cons_succ, List.getD_cons_zero]
            exact le_of_lt (lt_of_lt_of_le hlt hx)
          | succ j' =>
            simp only [List.getD_cons_succ]
            exact hle j' (by simpa using hj)
        · intro j hj
          cases j with
          | zero =>
            simp only [List.getD_cons_succ, List.getD_cons_zero]
            exact lt_of_lt_of_le hlt hx
          | succ j' =>
            simp only [List.getD_cons_succ]
            exact hstrict j' (by omega)

/-- `argminIdx` returns the first index attaining the minimum. -/
theorem argminIdx_spec (l : List ℚ) (hne : l ≠ []) :
    argminIdx l < l.length ∧
    (∀ j, j < l.length → l.getD (argminIdx l) 0 ≤ l.getD j 0) ∧
    (∀ j, j < argminIdx l → l.getD (argminIdx l) 0 < l.getD j 0) := by
  cases l with
  | nil => exact absurd rfl hne
  | cons v rest =>
    rcases argminAux_spec rest 1 0 v (by omega)
      with ⟨hr, hall⟩ | ⟨k, hk, hr, hlt, hle, hstrict⟩
    · have e : argminIdx (v :: rest) = 0 := hr
      refine ⟨by rw [e]; simp, ?_, ?_⟩
      · intro j hj
        rw [e]
        cases j with
        | zero => simp
        | succ j' =>
          simp only [List.getD_cons_zero, List.getD_cons_succ]
          exact hall j' (by simpa using hj)
      · intro j hj
        rw [e] at hj
        omega
    · have e : argminIdx (v :: rest) = k + 1 := by
        have e0 : argminIdx (v :: rest) = argminAux rest 1 0 v := rfl
        rw [e0, hr]
        omega
      refine ⟨by rw [e]; simpa using hk, ?_, ?_⟩
      · intro j hj
        rw [e]
        cases j with
        | zero =>
          simp only [List.getD_cons_succ, List.getD_cons_zero]
          exact le_of_lt hlt
        | succ j' =>
          simp only [List.getD_cons_succ]
          exact hle j' (by simpa using hj)
      · intro j hj
        rw [e] at hj
        rw [e]
        cases j with
        | zero =>
          simp only [List.getD_cons_succ, List.getD_cons_zero]
          exact hlt
        | succ j' =>
          simp only [List.getD_cons_succ]
          exact hstrict j' (by omega)

theorem mem_firstOccurrences : ∀ (l : List Int) (a : Int),
    a ∈ firstOccurrences l ↔ a ∈ l := by
  intro l
  induction l using firstOccurrences.induct with
  | case1 => intro a; simp [firstOccurrences]
  | case2 x xs ih =>
    intro a
    rw [firstOccurrences]
    by_cases hax : a = x
    · subst hax; simp
    · simp only [List.mem_cons, ih a, List.mem_filter]
      constructor
      · rintro (h | ⟨h, -⟩)
        · exact Or.inl h
        · exact Or.inr h
      · rintro (h | h)
        · exact Or.inl h
        · exact Or.inr ⟨h, by simpa using hax⟩

theorem nodup_firstOccurrences : ∀ (l : List Int), (firstOccurrences l).Nodup := by
  intro l
  induction l using firstOccurrences.induct with
  | case1 => simp [firstOccurrences]
  | case2 x xs ih =>
    rw [firstOccurrences]
    refine List.nodup_cons.mpr ⟨?_, ih⟩
    intro hmem
    have := (mem_firstOccurrences _ x).mp hmem
    simp at this

theorem lookupAll_ok (frames : List EFrame) (clusters : List (String × Int))
    (hcov : ∀ f ∈ frames, (clusters.lookup f.path).isSome) :
    lookupAll frames clusters
      = .ok (frames.map (fun f => ((clusters.lookup f.path).getD 0, f))) := by
  induction frames with
  | nil => rfl
  | cons g rest ih =>
    obtain ⟨c, hc⟩ := Option.isSome_iff_exists.mp (hcov g (by simp))
    simp [lookupAll, hc, ih (fun f hf => hcov f (by simp [hf]))]

theorem getD_map_q (l : List EFrame) (g : EFrame → ℚ) (j : ℕ) (h : j < l.length) :
    (l.map g).getD j 0 = g (l.getD j default) := by
  rw [List.getD_eq_getElem _ _ (by simpa using h), List.getElem_map,
    List.getD_eq_getElem _ _ h]

theorem items_eq (frames : List EFrame) (cid : EFrame → Int) (c : Int) :
    ((frames.map (fun f => (cid f, f))).filter (fun p => decide (p.1 = c))).map (fun p => p.2)
      = frames.filter (fun f => decide (cid f = c)) := by
  rw [List.filter_map, List.map_map]
  have h1 : ((fun p : Int × EFrame => p.2) ∘ (fun f => (cid f, f))) = id := rfl
  have h2 : ((fun p : Int × EFrame => decide (p.1 = c)) ∘ (fun f => (cid f, f)))
      = (fun f => decide (cid f = c)) := rfl
  rw [h1, h2, List.map_id]

theorem pairs_fst (frames : List EFrame) (cid : EFrame → Int) :
    (frames.map (fun f => (cid f, f))).map (fun p => p.1) = frames.map cid := by
  rw [List.map_map]
  rfl

/-- `b` indexes the group member with minimal (squared) Euclidean distance to
the group centroid, and strictly beats every earlier member — i.e. the
centroid-nearest frame with ties broken by first occurrence. -/
def isFirstNearest (items : List EFrame) (b : ℕ) : Prop :=
  b < items.length ∧
  (∀ j, j < items.length →
    distSq (items.getD b default).embedding (centroid (items.map (fun f => f.embedding)))
      ≤ distSq (items.getD j default).embedding (centroid (items.map (fun f => f.embedding)))) ∧
  (∀ j, j < b →
    distSq (items.getD b default).embedding (centroid (items.map (fun f => f.embedding)))
      < distSq (items.getD j default).embedding (centroid (items.map (fun f => f.embedding))))

/-- Normal form of `select_run` under total coverage. -/
theorem select_run_eq (frames : List EFrame) (clusters : List (String × Int))
    (hcov : ∀ f ∈ frames, (clusters.lookup f.path).isSome) :
    select_run frames clusters
      = .ok ((firstOccurrences (frames.map (fun f => (clusters.lookup f.path).getD 0))).map
          (fun c =>
            mkRep c ((frames.filter
                (fun f => decide ((clusters.lookup f.path).getD 0 = c))).getD
              (argminIdx (((frames.filter
                    (fun f => decide ((clusters.lookup f.path).getD 0 = c))).map
                  (fun f => f.embedding)).map
                (fun v => distSq v (centroid ((frames.filter
                    (fun f => decide ((clusters.lookup f.path).getD 0 = c))).map
                  (fun f => f.embedding))))))
              default))) := by
  rw [select_run, lookupAll_ok frames clusters hcov]
  simp only [items_eq frames (fun f => (clusters.lookup f.path).getD 0),
    pairs_fst frames (fun f => (clusters.lookup f.path).getD 0)]

/-- **C8** (representative selection, `select_representative_frames.py`
lines 46-71).  Under total coverage the selector succeeds and outputs exactly
one representative per distinct scene id (ids in first-occurrence order,
without duplicates, covering exactly the ids present); each representative is
built from the group member with minimal Euclidean distance to the group's
componentwise mean embedding, ties broken by first occurrence in
chronological order. -/
theorem select_representatives_correct (frames : List EFrame)
    (clusters : List (String × Int))
    (hcov : ∀ f ∈ frames, (clusters.lookup f.path).isSome) :
    ∃ reps, select_run frames clusters = .ok reps ∧
      reps.map (fun r => r.cluster)
        = firstOccurrences (frames.map (fun f => (clusters.lookup f.path).getD 0)) ∧
      (reps.map (fun r => r.cluster)).Nodup ∧
      (∀ c : Int, c ∈ reps.map (fun r => r.cluster)
          ↔ c ∈ frames.map (fun f => (clusters.lookup f.path).getD 0)) ∧
      (∀ rep ∈ reps, ∃ b,
        isFirstNearest (frames.filter
          (fun f => decide ((clusters.lookup f.path).getD 0 = rep.cluster))) b ∧
        rep = mkRep rep.cluster ((frames.filter
          (fun f => decide ((clusters.lookup f.path).getD 0 = rep.cluster))).getD b default)) := by
  refine ⟨_, select_run_eq frames clusters hcov, ?_, ?_, ?_, ?_⟩
  · rw [List.map_map]
    have hcomp : ((fun r : Rep => r.cluster) ∘ (fun c =>
        mkRep c ((frames.filter
            (fun f => decide ((clusters.lookup f.path).getD 0 = c))).getD
          (argminIdx (((frames.filter
                (fun f => decide ((clusters.lookup f.path).getD 0 = c))).map
              (fun f => f.embedding)).map
            (fun v => distSq v (centroid ((frames.filter
                (fun f => decide ((clusters.lookup f.path).getD 0 = c))).map
              (fun f => f.embedding))))))
          default))) = id := rfl
    rw [hcomp, List.map_id]
  · rw [List.map_map]
    have hcomp : ((fun r : Rep => r.cluster) ∘ (fun c =>
        mkRep c ((frames.filter
            (fun f => decide ((clusters.lookup f.path).getD 0 = c))).getD
          (argminIdx (((frames.filter
                (fun f => decide ((clusters.lookup f.path).getD 0 = c))).map
              (fun f => f.embedding)).map
            (fun v => distSq v (centroid ((frames.filter
                (fun f => decide ((clusters.lookup f.path).getD 0 = c))).map
              (fun f => f.embedding))))))
          default))) = id := rfl
    rw [hcomp, List.map_id]
    exact nodup_firstOccurrences _
  · intro c
    rw [List.map_map]
    have hcomp : ((fun r : Rep => r.cluster) ∘ (fun c =>
        mkRep c ((frames.filter
            (fun f => decide ((clusters.lookup f.path).getD 0 = c))).getD
          (argminIdx (((frames.filter
                (fun f => decide ((clusters.lookup f.path).getD 0 = c))).map
              (fun f => f.embedding)).map
            (fun v => distSq v (centroid ((frames.filter
                (fun f => decide ((clusters.lookup f.path).getD 0 = c))).map
              (fun f => f.embedding))))))
          default))) = id := rfl
    rw [hcomp, List.map_id]
    exact mem_firstOccurrences _ c
  · intro rep hrep
    obtain ⟨c, hcf, hrepeq⟩ := List.mem_map.mp hrep
    have hcluster : rep.cluster = c := by rw [← hrepeq]; rfl
    subst hrepeq
    rw [hcluster]
    obtain ⟨f, hf, hfc⟩ := List.mem_map.mp ((mem_firstOccurrences _ c).mp hcf)
    have hfi : f ∈ frames.filter (fun f => decide ((clusters.lookup f.path).getD 0 = c)) :=
      List.mem_filter.mpr ⟨hf, by simp [hfc]⟩
    have hine : frames.filter (fun f => decide ((clusters.lookup f.path).getD 0 = c)) ≠ [] :=
      List.ne_nil_of_mem hfi
    have hlen : (((frames.filter
          (fun f => decide ((clusters.lookup f.path).getD 0 = c))).map
        (fun f => f.embedding)).map
      (fun v => distSq v (centroid ((frames.filter
          (fun f => decide ((clusters.lookup f.path).getD 0 = c))).map
        (fun f => f.embedding))))).length
        = (frames.filter (fun f => decide ((clusters.lookup f.path).getD 0 = c))).length := by
      simp
    have hdne : (((frames.filter
          (fun f => decide ((clusters.lookup f.path).getD 0 = c))).map
        (fun f => f.embedding)).map
      (fun v => distSq v (centroid ((frames.filter
          (fun f => decide ((clusters.lookup f.path).getD 0 = c))).map
        (fun f => f.embedding))))) ≠ [] := by
      intro hcon
      have := congrArg List.length hcon
      rw [hlen] at this
      simp at this
      exact this f hf hfc
    obtain ⟨hb, hmin, hfirst⟩ := argminIdx_spec _ hdne
    rw [hlen] at hb
    have hgd : ∀ j, j < (frames.filter
        (fun f => decide ((clusters.lookup f.path).getD 0 = c))).length →
        (((frames.filter
            (fun f => decide ((clusters.lookup f.path).getD 0 = c))).map
          (fun f => f.embedding)).map
        (fun v => distSq v (centroid ((frames.filter
            (fun f => decide ((clusters.lookup f.path).getD 0 = c))).map
          (fun f => f.embedding))))).getD j 0
          = distSq ((frames.filter
              (fun f => decide ((clusters.lookup f.path).getD 0 = c))).getD j default).embedding
            (centroid ((frames.filter
              (fun f => decide ((clusters.lookup f.path).getD 0 = c))).map
            (fun f => f.embedding))) := by
      intro j hj
      rw [List.map_map]
      exact getD_map_q _ _ j hj
    refine ⟨argminIdx (((frames.filter
          (fun f => decide ((clusters.lookup f.path).getD 0 = c))).map
        (fun f => f.embedding)).map
      (fun v => distSq v (centroid ((frames.filter
          (fun f => decide ((clusters.lookup f.path).getD 0 = c))).map
        (fun f => f.embedding))))), ⟨hb, ?_, ?_⟩, rfl⟩
    · intro j hj
      have h1 := hmin j (by rw [hlen]; exact hj)
      rw [hgd _ hb, hgd _ hj] at h1
      exact h1
    · intro j hj
      have h1 := hfirst j hj
      rw [hgd _ hb, hgd _ (lt_trans hj hb)] at h1
      exact h1

/-- Witness for C8: three frames in one cluster, total coverage. -/
theorem select_representatives_correct_witness :
    ∃ reps, select_run [⟨0, 0, "a", [0]⟩, ⟨1, 1, "b", [4]⟩, ⟨2, 2, "c", [1]⟩]
        [("a", 0), ("b", 0), ("c", 0)] = .ok reps ∧
      reps.map (fun r => r.cluster)
        = firstOccurrences (([⟨0, 0, "a", [0]⟩, ⟨1, 1, "b", [4]⟩, ⟨2, 2, "c", [1]⟩] : List EFrame).map
            (fun f => (([("a", 0), ("b", 0), ("c", 0)] : List (String × Int)).lookup f.path).getD 0)) ∧
      (reps.map (fun r => r.cluster)).Nodup ∧
      (∀ c : Int, c ∈ reps.map (fun r => r.cluster)
          ↔ c ∈ ([⟨0, 0, "a", [0]⟩, ⟨1, 1, "b", [4]⟩, ⟨2, 2, "c", [1]⟩] : List EFrame).map
              (fun f => (([("a", 0), ("b", 0), ("c", 0)] : List (String × Int)).lookup f.path).getD 0)) ∧
      (∀ rep ∈ reps, ∃ b,
        isFirstNearest (([⟨0, 0, "a", [0]⟩, ⟨1, 1, "b", [4]⟩, ⟨2, 2, "c", [1]⟩] : List EFrame).filter
          (fun f => decide ((([("a", 0), ("b", 0), ("c", 0)] : List (String × Int)).lookup f.path).getD 0
            = rep.cluster))) b ∧
        rep = mkRep rep.cluster
          ((([⟨0, 0, "a", [0]⟩, ⟨1, 1, "b", [4]⟩, ⟨2, 2, "c", [1]⟩] : List EFrame).filter
            (fun f => decide ((([("a", 0), ("b", 0), ("c", 0)] : List (String × Int)).lookup f.path).getD 0
              = rep.cluster))).getD b default)) :=
  select_representatives_correct _ _ (by decide)
